import Mathlib

/-!
Verification of the `lsp-outside-the-editor` repository: a shallow embedding of
its frame codec (`lsp-client/src/clients/stdio.rs`), JSON-RPC client
(`src/lsp.rs`), call-usage analyzer (`fn-usage/src/lib.rs`) and reference-graph
builder (`code-graph/src/main.rs`), together with theorems settling the frozen
claims about them.

Machine integers (`usize`, `i64`) are modelled as `Nat`/`Int`; byte streams as
`List Nat` (byte values); Rust `String` payloads as `List Char`; fallible or
panicking code as `Option`/`Except`.
-/

/-! ## Shared data model

LSP positions and ranges (`lsp_types::Position`, `lsp_types::Range`).  A
`Range` is a start/end pair of positions. -/

structure Position where
  line : Nat
  character : Nat
deriving DecidableEq

/-- LSP `Range`: `(start, end)` pair of positions. -/
abbrev Range := Position × Position

/-! ## Directed reachability

`petgraph::algo::has_path_connecting g a b` decides whether a directed path
(including the empty path, so `a = b` always connects) leads from `a` to `b`.
We embed it as an executable breadth-first closure over an edge list: iterate
the one-step successor expansion enough times that the set of reached vertices
is guaranteed to have stabilised (`edges.length + 1` iterations suffice since
each useful iteration adds at least one of the at most `edges.length + 1`
candidate vertices).  `hasPathC_iff_reflTransGen` below proves it equivalent to
the reflexive-transitive closure of the edge relation. -/

/-- One expansion step: everything in `S` plus every edge target whose source
is already in `S`. -/
def stepR {α : Type} [DecidableEq α] (edges : List (α × α)) (S : Finset α) : Finset α :=
  edges.foldr (fun e acc => if e.1 ∈ S then insert e.2 acc else acc) S

/-- All vertices reachable from `src` along the edge list. -/
def reachSet {α : Type} [DecidableEq α] (edges : List (α × α)) (src : α) : Finset α :=
  (stepR edges)^[edges.length + 1] {src}

/-- Executable model of `petgraph::algo::has_path_connecting`. -/
def hasPathC {α : Type} [DecidableEq α] (edges : List (α × α)) (src dst : α) : Bool :=
  decide (dst ∈ reachSet edges src)

/-- The one-step edge relation of an edge list. -/
def edgeRel {α : Type} (edges : List (α × α)) (a b : α) : Prop :=
  (a, b) ∈ edges

/-! ## Frame codec

Encoder: `Client::request`/`Client::notify` in `src/lsp.rs` send
`format!("Content-Length: {}\r\n\r\n{}", msg.as_bytes().len(), msg)`.

Decoder: `stdout_proxy` in `lsp-client/src/clients/stdio.rs` reads header
lines with `read_line`, splits them with `split_ascii_whitespace`, and on the
blank line reads the body with repeated `read_until(b'}')` calls until the
declared `Content-Length` byte count has been consumed. -/

/-- Bytes of a string literal (ASCII in all uses here). -/
def strBytes (s : String) : List Nat :=
  s.toList.map Char.toNat

/-- `char::is_ascii_whitespace`: space, tab, line feed, form feed, carriage
return. -/
def isWS (c : Nat) : Bool :=
  c = 32 || c = 9 || c = 10 || c = 12 || c = 13

/-- Accumulator-passing core of `split_ascii_whitespace`. -/
def wordsAux : List Nat → List Nat → List (List Nat)
  | [], acc => if acc.isEmpty then [] else [acc.reverse]
  | c :: rest, acc =>
    if isWS c then
      if acc.isEmpty then wordsAux rest [] else acc.reverse :: wordsAux rest []
    else
      wordsAux rest (c :: acc)

/-- `str::split_ascii_whitespace` collected to a list of words. -/
def asciiWords (l : List Nat) : List (List Nat) :=
  wordsAux l []

/-- `BufRead::read_line`: consume up to and including the first line feed
(byte 10), or the whole stream if none occurs.  Returns (line, rest). -/
def readLine : List Nat → List Nat × List Nat
  | [] => ([], [])
  | c :: rest =>
    if c = 10 then ([c], rest)
    else
      let p := readLine rest
      (c :: p.1, p.2)

/-- `BufRead::read_until(b'}')`: consume up to and including the first `}`
(byte 125), or the whole stream if none occurs.  Returns (chunk, rest). -/
def readUntilBrace : List Nat → List Nat × List Nat
  | [] => ([], [])
  | c :: rest =>
    if c = 125 then ([c], rest)
    else
      let p := readUntilBrace rest
      (c :: p.1, p.2)

/-- `str::parse::<usize>`: all-digit nonempty strings parse, anything else is
an error (the decoder `unwrap`s it, so an error is a panic). -/
def parseNatBytes (l : List Nat) : Option Nat :=
  if l.isEmpty then none
  else if l.all (fun c => 48 ≤ c && c ≤ 57) then
    some (l.foldl (fun a c => a * 10 + (c - 48)) 0)
  else none

/-- Little-endian decimal digit bytes of `n`; the fuel argument (always at
least `n`) only makes the recursion structural. -/
def natDigitsAux : Nat → Nat → List Nat
  | 0, _ => []
  | _ + 1, 0 => []
  | fuel + 1, n + 1 => ((n + 1) % 10 + 48) :: natDigitsAux fuel ((n + 1) / 10)

/-- Decimal digit bytes of `n`, as produced by Rust's `Display` for `usize`. -/
def natDigits (n : Nat) : List Nat :=
  if n = 0 then [48] else (natDigitsAux n n).reverse

/-- The header token `"Content-Length:"` as bytes. -/
def clToken : List Nat := strBytes "Content-Length:"

/-- The header token `"Content-Type:"` as bytes. -/
def ctToken : List Nat := strBytes "Content-Type:"

/-- The frame encoder of `Client::request`/`Client::notify` (`src/lsp.rs`):
`"Content-Length: <n>\r\n\r\n<body>"` where `n` is the body byte count. -/
def encodeFrame (body : List Nat) : List Nat :=
  strBytes "Content-Length: " ++ natDigits body.length ++ strBytes "\r\n\r\n" ++ body

/-- The `AwaitBody` loop of `stdout_proxy`:
`while bytes_left > 0 { read_bytes = rx.read_until(b'}', &mut content); bytes_left -= read_bytes; }`.
`none` models the two divergent outcomes: a read returning 0 bytes
(end-of-stream, so `bytes_left` never shrinks and the Rust loop spins forever)
and a read overshooting `bytes_left` (the `usize` subtraction underflows).
Returns the accumulated content and the unconsumed stream. -/
def readBodyLoop : Nat → List Nat → List Nat → Option (List Nat × List Nat)
  | 0, stream, acc => some (acc, stream)
  | bytesLeft + 1, stream, acc =>
    let p := readUntilBrace stream
    if h : p.1.length = 0 then none
    else if p.1.length > bytesLeft + 1 then none
    else readBodyLoop (bytesLeft + 1 - p.1.length) p.2 (acc ++ p.1)
termination_by bytesLeft _ _ => bytesLeft + 1
decreasing_by simp_wf; exact Nat.pos_of_ne_zero h

/-- The header state machine of `stdout_proxy`, decoding one message: read a
line, split it into words, and dispatch on (words, pending length, pending
type) exactly as the Rust `match` does.  `none` covers every non-delivering
outcome (orderly shutdown on a blank line with no pending length, the
`panic!` arm, a non-numeric length, and the divergent body reads).  `fuel` is
a recursion bound only; every iteration consumes at least one byte, so
`stream.length + 1` fuel (as used by `decodeFrame`) is never exhausted. -/
def decodeLoop : Nat → List Nat → Option Nat → Option (List Nat) → Option (List Nat × List Nat)
  | 0, _, _, _ => none
  | fuel + 1, stream, optLen, optType =>
    match stream with
    | [] =>
      -- read_line returns 0 bytes at end of stream: an empty line
      match optLen with
      | some n => readBodyLoop n [] []
      | none => none
    | c :: rest0 =>
      let p := readLine (c :: rest0)
      match asciiWords p.1, optLen, optType with
      | [w1, w2], none, none =>
        if w1 = clToken then
          match parseNatBytes w2 with
          | some n => decodeLoop fuel p.2 (some n) none
          | none => none
        else none
      | [w1, w2], some l, none =>
        if w1 = ctToken then decodeLoop fuel p.2 (some l) (some w2) else none
      | [], some n, _ => readBodyLoop n p.2 []
      | _, _, _ => none

/-- Decode one framed message from the front of a byte stream, returning the
body and the unconsumed remainder. -/
def decodeFrame (stream : List Nat) : Option (List Nat × List Nat) :=
  decodeLoop (stream.length + 1) stream none none

/-! ## JSON-RPC client (`src/lsp.rs`)

`Client` holds a `StringIO` handle and a `request_id_counter : i64`.
`request` serializes a `jsonrpc::Request` carrying the current counter as its
id, sends one frame, then loops on `recv`: each received string is parsed as a
JSON `Value`; a value with no `"method"` field whose `"id"` equals the counter
is parsed as a `jsonrpc::Response` and breaks the loop; anything else is
dropped and the loop continues.  Only after a response parses is the counter
incremented; `response.result.into()` then yields `Ok` or the JSON-RPC error.

The embedding abstracts the serde layer: an inbound item is either a failing
`recv`, a string that fails `from_str::<Value>`, or a parsed value described
by the three observations `request` makes of it (presence of `"method"`, the
`"id"` as `i64`, and the result of `from_value::<Response<_>>`).  `V` stands
for the `R::Result` payload type. -/

deriving instance DecidableEq for Except

/-- The mutable client state: `request_id_counter`. -/
structure ClientState where
  requestIdCounter : Int
deriving DecidableEq

/-- A parsed `jsonrpc::Response` body: the flattened `result`/`error` variant
(`jsonrpc::JsonRpcResult`). -/
inductive JsonRpcResultM (V : Type) where
  | result (v : V)
  | rpcError (code : Int) (message : List Char)
deriving DecidableEq

/-- An inbound JSON value as `Client::request` observes it. -/
structure InMsg (V : Type) where
  hasMethod : Bool
  idField : Option Int
  parse : Option (JsonRpcResultM V)
deriving DecidableEq

/-- One `self.io.recv()` interaction. -/
inductive RecvItem (V : Type) where
  | recvErr
  | strParseErr
  | msg (m : InMsg V)
deriving DecidableEq

/-- The distinguishable ways `Client::request` can fail (all are collapsed
into `anyhow::Error` by the source, but arise at distinct points). -/
inductive ClientErr where
  | serializeFailed
  | sendFailed
  | recvFailed
  | parseFailed
  | rpc (code : Int) (message : List Char)
deriving DecidableEq

/-- The response test in `Client::request`'s loop:
`response.get("method").is_none() && response.get("id").is_some_and(|id| id.as_i64() == Some(counter))`. -/
def isOurResponse {V : Type} (counter : Int) (m : InMsg V) : Bool :=
  !m.hasMethod && decide (m.idField = some counter)

/-- The `recv` loop of `Client::request`.  Returns `none` when the inbox is
exhausted (the Rust loop would block forever on `recv`), otherwise the
outcome together with whether a response was parsed (which is what triggers
the counter increment). -/
def processInbox {V : Type} [DecidableEq V] (counter : Int) :
    List (RecvItem V) → Option (Except ClientErr V × Bool)
  | [] => none
  | .recvErr :: _ => some (.error .recvFailed, false)
  | .strParseErr :: _ => some (.error .parseFailed, false)
  | .msg m :: rest =>
    if isOurResponse counter m then
      match m.parse with
      | none => some (.error .parseFailed, false)
      | some (.result v) => some (.ok v, true)
      | some (.rpcError c msg) => some (.error (.rpc c msg), true)
    else processInbox counter rest

/-- `Client::request`.  `serOk`/`sendOk` model whether `serde_json::to_string`
and `io.send` succeed.  Returns the new state, the id the request was
serialized with (none if serialization failed before an id was used), and the
outcome (`none` = blocked forever). -/
def request {V : Type} [DecidableEq V] (st : ClientState) (serOk sendOk : Bool)
    (inbox : List (RecvItem V)) :
    ClientState × Option Int × Option (Except ClientErr V) :=
  if !serOk then (st, none, some (.error .serializeFailed))
  else if !sendOk then (st, some st.requestIdCounter, some (.error .sendFailed))
  else
    match processInbox st.requestIdCounter inbox with
    | none => (st, some st.requestIdCounter, none)
    | some (out, inc) =>
      (⟨st.requestIdCounter + (if inc then 1 else 0)⟩, some st.requestIdCounter, some out)

/-- `Client::notify`: serialize and send, no id, no correlation. -/
def notify (st : ClientState) (serOk sendOk : Bool) : ClientState × Except ClientErr Unit :=
  (st,
    if !serOk then .error .serializeFailed
    else if !sendOk then .error .sendFailed
    else .ok ())

/-- A sequence of `request` calls on one client session; for each call the
issued id and the outcome are recorded. -/
def runSession {V : Type} [DecidableEq V] (st : ClientState) :
    List (Bool × Bool × List (RecvItem V)) → List (Option Int × Option (Except ClientErr V))
  | [] => []
  | (serOk, sendOk, inbox) :: rest =>
    let r := request st serOk sendOk inbox
    (r.2.1, r.2.2) :: runSession r.1 rest

/-- Did the call complete by receiving and parsing a matching response
(successful result or JSON-RPC error object)? -/
def isResponseOutcome {V : Type} : Option (Except ClientErr V) → Bool
  | some (.ok _) => true
  | some (.error (.rpc _ _)) => true
  | _ => false

/-- Failures that occur before a matching response is parsed. -/
def isEarlyFailure : ClientErr → Bool
  | .serializeFailed => true
  | .sendFailed => true
  | .recvFailed => true
  | .parseFailed => true
  | .rpc _ _ => false

/-- `response.result.into()`: convert a parsed response body to the returned
`Result`. -/
def outcomeOf {V : Type} : JsonRpcResultM V → Except ClientErr V
  | .result v => .ok v
  | .rpcError c m => .error (.rpc c m)

/-! ## Call usage analyzer (`fn-usage/src/lib.rs`, `calc_fn_usage`)

`calc_fn_usage` adds one `petgraph` node per item of `fn_items` (so node
indices are `0, 1, ...` in list order, kept as `nodes = fn_items.zip (range n)`),
resolves each call edge's endpoints to the *first* node whose
`selection_range` equals the endpoint's (`.find(...).unwrap()`, a panic if no
item matches, modelled by `Option`), then scores every node by
`(count of nodes with a path to it - 1) / nodes.len() * 100`.  The `f32`
arithmetic is modelled exactly over `ℚ` (the subtraction happens in `usize`
before the cast, and the count always includes the node itself, so it never
underflows). -/

/-- `lsp_types::CallHierarchyItem` (the fields the analyzer stores; node
identity in `calc_fn_usage` compares only `selectionRange`). -/
structure CallHierarchyItem where
  name : List Char
  kind : Nat
  uri : List Char
  range : Range
  selectionRange : Range
deriving DecidableEq

/-- The edge-resolution loop of `calc_fn_usage`: each `(src, dst)` call is
mapped to the pair of indices of the first items with equal
`selection_range`; a missing endpoint is the `unwrap` panic. -/
def resolveEdges (fn_items : List CallHierarchyItem)
    (fn_calls : List (CallHierarchyItem × CallHierarchyItem)) : Option (List (Nat × Nat)) :=
  fn_calls.mapM (fun call => do
    let s ← fn_items.findIdx? (fun n => decide (n.selectionRange = call.1.selectionRange))
    let d ← fn_items.findIdx? (fun n => decide (n.selectionRange = call.2.selectionRange))
    pure (s, d))

/-- `calc_fn_usage`.  `none` models the endpoint-lookup panic. -/
def calc_fn_usage (fn_items : List CallHierarchyItem)
    (fn_calls : List (CallHierarchyItem × CallHierarchyItem)) :
    Option (List (CallHierarchyItem × ℚ)) :=
  match resolveEdges fn_items fn_calls with
  | none => none
  | some edges =>
    let nodes := fn_items.zip (List.range fn_items.length)
    some (nodes.map (fun node =>
      let usage : ℚ :=
        ((nodes.countP (fun other => hasPathC edges other.2 node.2) - 1 : Nat) : ℚ) /
          (nodes.length : ℚ) * 100
      (node.1, usage)))

/-- Modelled from the spec (for comparison with `calc_fn_usage`, not from the
source): "usage score(N) = 100 × (|{M ≠ N : a directed path exists from M to
N}|) / (total node count)" with "node identity for the call graph is
structural equality" on the selection range, so nodes are the distinct
selection ranges, edges relate ranges, and the node count is the number of
distinct ranges. -/
def specUsageScore (fn_items : List CallHierarchyItem)
    (fn_calls : List (CallHierarchyItem × CallHierarchyItem)) (N : CallHierarchyItem) : ℚ :=
  let rangeEdges := fn_calls.map (fun c => (c.1.selectionRange, c.2.selectionRange))
  let nodeSet : Finset Range := (fn_items.map (fun it => it.selectionRange)).toFinset
  100 * ((nodeSet.filter
      (fun r => r ≠ N.selectionRange ∧ hasPathC rangeEdges r N.selectionRange = true)).card : ℚ) /
    (nodeSet.card : ℚ)

/-! ## Reference graph builder (`code-graph/src/main.rs`, `get_connections`)

`get_connections` sends `initialize`, aborts unless the reported capabilities
contain a `documentSymbol` provider and a `references` provider, sends
`initialized`, then for each file: `didOpen`, `documentSymbol` (a `null`
result skips the file, a `Flat` response is `todo!()`), and for each
*top-level* symbol of a `Nested` response inserts the file uri into the node
set and requests `references` at the symbol's `selection_range.start`; every
returned location's uri becomes a node, and an edge
`(reference uri → symbol uri)` is recorded when they differ.  Finally the
root uri is stripped from every node and edge endpoint, dropping entries it
does not prefix.

The embedding makes the externally-supplied parts explicit: the server is an
oracle (`ServerModel`) giving each request's response (an `Except` for the
two `??` error layers), the walked file list is a parameter, and the run
additionally returns the trace of protocol interactions so that ordering
claims ("before any per-file request") are statable.  File texts, sleeps and
logging have no observable effect on the computed graph and are omitted. -/

/-- A uri, as the `String` the Rust code compares and strips. -/
abbrev Uri := List Char

/-- The two capability fields `get_connections` inspects. -/
structure ServerCaps where
  documentSymbolProvider : Option Unit
  referencesProvider : Option Unit

/-- `lsp_types::DocumentSymbol` (fields the builder and spec mention; absent
`children` is modelled as the empty list). -/
inductive DocSymbol where
  | mk (name : List Char) (kind : Nat) (selectionRange : Range) (children : List DocSymbol)

/-- The `selection_range` field. -/
def DocSymbol.selectionRange : DocSymbol → Range
  | .mk _ _ r _ => r

/-- The `children` field. -/
def DocSymbol.children : DocSymbol → List DocSymbol
  | .mk _ _ _ c => c

/-- `lsp_types::DocumentSymbolResponse`; the payload of `Flat` is irrelevant,
since `get_connections` hits `todo!()` on it. -/
inductive DSResponse where
  | flat
  | nested (symbols : List DocSymbol)

/-- A reference location; only its uri is consulted. -/
structure Location where
  uri : Uri

/-- The language server as an oracle for the three request kinds the builder
issues.  `Except` models the combined transport/JSON-RPC error layers
(`client.request::<..>(..)??`); the `Option` inside is the `null` result. -/
structure ServerModel where
  initCaps : Except (List Char) ServerCaps
  docSymbol : Uri → Except (List Char) (Option DSResponse)
  references : Uri → Position → Except (List Char) (Option (List Location))

/-- Protocol interactions, in issue order. -/
inductive TraceEv where
  | evInit
  | evInited
  | evDidOpen (uri : Uri)
  | evDocSymbol (uri : Uri)
  | evReferences (uri : Uri) (pos : Position)
deriving DecidableEq

/-- `path_to_uri`: `"file://" + path`. -/
def pathToUri (path : List Char) : Uri :=
  "file://".toList ++ path

/-- The inner reference loop: insert every reference uri as a node and record
an edge `(reference uri, symbol uri)` when the uris differ.  The Rust
`HashSet`s are modelled as duplicate-free lists: `List.insert` adds an
element unless it is already present (iteration order of a `HashSet` is
unspecified, so any order is a faithful choice). -/
def processReferences (refs : List Location) (symbolUri : Uri)
    (nodes : List Uri) (conns : List (Uri × Uri)) : List Uri × List (Uri × Uri) :=
  refs.foldl
    (fun acc loc =>
      let nodes' := acc.1.insert loc.uri
      if loc.uri ≠ symbolUri then (nodes', acc.2.insert (loc.uri, symbolUri))
      else (nodes', acc.2))
    (nodes, conns)

/-- The per-symbol loop over one file's top-level symbols: insert the file uri
as a node, request `references` at the symbol's `selection_range.start`, skip
the symbol on a `null` result, abort on an error.  Returns the emitted trace
and the outcome. -/
def processSymbols (srv : ServerModel) (fileUri : Uri) :
    List DocSymbol → List Uri → List (Uri × Uri) →
    List TraceEv × Except (List Char) (List Uri × List (Uri × Uri))
  | [], nodes, conns => ([], .ok (nodes, conns))
  | s :: rest, nodes, conns =>
    let nodes' := nodes.insert fileUri
    let ev := TraceEv.evReferences fileUri s.selectionRange.1
    match srv.references fileUri s.selectionRange.1 with
    | .error e => ([ev], .error e)
    | .ok none =>
      let r := processSymbols srv fileUri rest nodes' conns
      (ev :: r.1, r.2)
    | .ok (some refs) =>
      let acc := processReferences refs fileUri nodes' conns
      let r := processSymbols srv fileUri rest acc.1 acc.2
      (ev :: r.1, r.2)

/-- The per-file loop: `didOpen`, `documentSymbol`, then the symbol loop.  A
`null` symbol response skips the file; a `Flat` response is the `todo!()`
panic (modelled as an aborting error). -/
def processFiles (srv : ServerModel) :
    List (List Char) → List Uri → List (Uri × Uri) →
    List TraceEv × Except (List Char) (List Uri × List (Uri × Uri))
  | [], nodes, conns => ([], .ok (nodes, conns))
  | path :: rest, nodes, conns =>
    let fileUri := pathToUri path
    let evs := [TraceEv.evDidOpen fileUri, TraceEv.evDocSymbol fileUri]
    match srv.docSymbol fileUri with
    | .error e => (evs, .error e)
    | .ok none =>
      let r := processFiles srv rest nodes conns
      (evs ++ r.1, r.2)
    | .ok (some .flat) => (evs, .error "todo".toList)
    | .ok (some (.nested syms)) =>
      let r1 := processSymbols srv fileUri syms nodes conns
      match r1.2 with
      | .error e => (evs ++ r1.1, .error e)
      | .ok acc =>
        let r2 := processFiles srv rest acc.1 acc.2
        (evs ++ r1.1 ++ r2.1, r2.2)

/-- `str::strip_prefix` on char lists. -/
def stripPre (pre s : List Char) : Option (List Char) :=
  if pre.isPrefixOf s then some (s.drop pre.length) else none

/-- `get_connections`: capability gate, `initialized`, the file loop, and the
final root-stripping pass over the accumulated node and edge sets.  The file
list is the already-walked, already-filtered list of paths (directory walking
is an external collaborator). -/
def get_connections (srv : ServerModel) (basePath : List Char) (files : List (List Char)) :
    List TraceEv × Except (List Char) (List Uri × List (Uri × Uri)) :=
  let rootUri := pathToUri basePath
  match srv.initCaps with
  | .error e => ([TraceEv.evInit], .error e)
  | .ok caps =>
    if caps.documentSymbolProvider.isNone then
      ([TraceEv.evInit], .error "Server is not documentSymbol provider".toList)
    else if caps.referencesProvider.isNone then
      ([TraceEv.evInit], .error "Server does not support references provider".toList)
    else
      let r := processFiles srv files [] []
      match r.2 with
      | .error e => (TraceEv.evInit :: TraceEv.evInited :: r.1, .error e)
      | .ok (nodes, conns) =>
        let conns' := conns.filterMap (fun c =>
          match stripPre rootUri c.1, stripPre rootUri c.2 with
          | some src, some dst => some (src, dst)
          | _, _ => none)
        let nodes' := nodes.filterMap (fun nd => stripPre rootUri nd)
        (TraceEv.evInit :: TraceEv.evInited :: r.1, .ok (nodes', conns'))

/-- Modelled from the spec (for comparison with `get_connections`, not from
the source): "recursively flatten any nested symbol tree into a flat
sequence, retaining every symbol regardless of kind". -/
def flattenSymbols : List DocSymbol → List DocSymbol
  | [] => []
  | .mk n k r cs :: rest => .mk n k r cs :: (flattenSymbols cs ++ flattenSymbols rest)

/-! ## Concrete scenarios used by counterexamples and witnesses -/

/-- A selection range used by two distinct items below. -/
def rngA : Range := (⟨0, 0⟩, ⟨0, 1⟩)

/-- A second, different selection range. -/
def rngB : Range := (⟨1, 0⟩, ⟨1, 1⟩)

/-- Callable item `f` declared at `rngA`. -/
def itemA : CallHierarchyItem := ⟨"f".toList, 12, "file:///p/a".toList, rngA, rngA⟩

/-- Callable item `g` declared at `rngB`. -/
def itemB : CallHierarchyItem := ⟨"g".toList, 12, "file:///p/b".toList, rngB, rngB⟩

/-- A second occurrence of the callable at `rngA` (same selection range as
`itemA`, as returned by an independent query). -/
def itemA2 : CallHierarchyItem := ⟨"f".toList, 12, "file:///p/a".toList, rngA, rngA⟩

/-- Item list containing the `rngA` callable twice. -/
def dupItems : List CallHierarchyItem := [itemA, itemB, itemA2]

/-- One call: `g` calls `f`. -/
def dupCalls : List (CallHierarchyItem × CallHierarchyItem) := [(itemB, itemA)]

/-- An inbound value with a matching id `0`, no `"method"` field, and a body
that fails to parse as a `Response` (concretely: the JSON value
`{"id": 0}`, which lacks the mandatory `"jsonrpc"` string). -/
def msgIdOnly : InMsg Int := ⟨false, some 0, none⟩

/-- A matching, well-formed successful response for id 0 carrying result 7. -/
def msgOk0 : InMsg Int := ⟨false, some 0, some (.result 7)⟩

/-- Two-file scenario: the analyzed root. -/
def basePathAB : List Char := "/p".toList

/-- Two-file scenario: file A's path. -/
def pathA : List Char := "/p/a".toList

/-- Two-file scenario: file B's path. -/
def pathB : List Char := "/p/b".toList

/-- Two-file scenario: file A's uri. -/
def uriA : Uri := pathToUri pathA

/-- Two-file scenario: file B's uri. -/
def uriB : Uri := pathToUri pathB

/-- The single symbol declared in file A. -/
def symA : DocSymbol := .mk "x".toList 12 rngA []

/-- The single symbol declared in file B; file A references it. -/
def symB : DocSymbol := .mk "y".toList 12 rngB []

/-- Two-file server: A declares `x` (referenced only from A itself), B
declares `y`, referenced from B (its declaration) and from A; B does not
reference anything in A. -/
def srvAB : ServerModel where
  initCaps := .ok ⟨some (), some ()⟩
  docSymbol := fun u =>
    if u = uriA then .ok (some (.nested [symA]))
    else if u = uriB then .ok (some (.nested [symB]))
    else .ok none
  references := fun u _ =>
    if u = uriA then .ok (some [⟨uriA⟩])
    else if u = uriB then .ok (some [⟨uriB⟩, ⟨uriA⟩])
    else .ok none

/-- A nested symbol: the inner declaration, at its own selection range. -/
def symInner : DocSymbol := .mk "inner".toList 12 rngB []

/-- A nested symbol: the outer declaration containing `symInner`. -/
def symOuter : DocSymbol := .mk "outer".toList 5 rngA [symInner]

/-- Path of the file holding the nested symbols. -/
def pathN : List Char := "/p/n".toList

/-- Uri of the file holding the nested symbols. -/
def uriN : Uri := pathToUri pathN

/-- Server returning a nested symbol tree for `uriN`; every `references`
request succeeds with a `null` result. -/
def srvNested : ServerModel where
  initCaps := .ok ⟨some (), some ()⟩
  docSymbol := fun u => if u = uriN then .ok (some (.nested [symOuter])) else .ok none
  references := fun _ _ => .ok none

/-- A server whose capabilities lack a references provider. -/
def srvNoRefs : ServerModel where
  initCaps := .ok ⟨some (), none⟩
  docSymbol := fun _ => .ok none
  references := fun _ _ => .ok none

/-! ## Reachability lemmas -/

section ReachLemmas

variable {α : Type} [DecidableEq α]

theorem mem_stepR {edges : List (α × α)} {S : Finset α} {b : α} :
    b ∈ stepR edges S ↔ b ∈ S ∨ ∃ e ∈ edges, e.1 ∈ S ∧ e.2 = b := by
  induction edges with
  | nil => simp [stepR]
  | cons e es ih =>
    have hrec : stepR (e :: es) S =
        if e.1 ∈ S then insert e.2 (stepR es S) else stepR es S := rfl
    rw [hrec]
    by_cases h : e.1 ∈ S
    · simp only [h, if_true, Finset.mem_insert, ih, List.mem_cons]
      constructor
      · rintro (rfl | hb | ⟨f, hf, h1, h2⟩)
        · exact Or.inr ⟨e, Or.inl rfl, h, rfl⟩
        · exact Or.inl hb
        · exact Or.inr ⟨f, Or.inr hf, h1, h2⟩
      · rintro (hb | ⟨f, rfl | hf, h1, h2⟩)
        · exact Or.inr (Or.inl hb)
        · exact Or.inl h2.symm
        · exact Or.inr (Or.inr ⟨f, hf, h1, h2⟩)
    · simp only [h, if_false, ih, List.mem_cons]
      constructor
      · rintro (hb | ⟨f, hf, h1, h2⟩)
        · exact Or.inl hb
        · exact Or.inr ⟨f, Or.inr hf, h1, h2⟩
      · rintro (hb | ⟨f, rfl | hf, h1, h2⟩)
        · exact Or.inl hb
        · exact absurd h1 h
        · exact Or.inr ⟨f, hf, h1, h2⟩

theorem subset_stepR {edges : List (α × α)} {S : Finset α} : S ⊆ stepR edges S :=
  fun _ hb => mem_stepR.mpr (Or.inl hb)

theorem iterate_stepR_grow {edges : List (α × α)} {S : Finset α} (k : Nat) :
    (stepR edges)^[k] S ⊆ (stepR edges)^[k + 1] S := by
  rw [Function.iterate_succ_apply']
  exact subset_stepR

theorem subset_iterate_stepR {edges : List (α × α)} {S : Finset α} :
    ∀ k, S ⊆ (stepR edges)^[k] S := by
  intro k
  induction k with
  | zero => exact fun _ hb => hb
  | succ k ih => exact fun b hb => iterate_stepR_grow k (ih hb)

theorem iterate_stepR_subset_bound (edges : List (α × α)) (src : α) :
    ∀ k, (stepR edges)^[k] {src} ⊆ insert src (edges.map Prod.snd).toFinset := by
  intro k
  induction k with
  | zero =>
    intro b hb
    rw [Function.iterate_zero_apply, Finset.mem_singleton] at hb
    exact hb ▸ Finset.mem_insert_self _ _
  | succ k ih =>
    rw [Function.iterate_succ_apply']
    intro b hb
    rcases mem_stepR.mp hb with hb | ⟨e, he, _, h2⟩
    · exact ih hb
    · exact h2 ▸ Finset.mem_insert_of_mem (List.mem_toFinset.mpr (List.mem_map_of_mem _ he))

theorem exists_iterate_stepR_fixed (edges : List (α × α)) (src : α) :
    ∃ k ≤ edges.length, stepR edges ((stepR edges)^[k] {src}) = (stepR edges)^[k] {src} := by
  by_contra hcon
  push_neg at hcon
  have grow : ∀ k, k ≤ edges.length + 1 → k + 1 ≤ ((stepR edges)^[k] ({src} : Finset α)).card := by
    intro k
    induction k with
    | zero => intro _; simp
    | succ k ih =>
      intro hk
      have h1 : k + 1 ≤ ((stepR edges)^[k] ({src} : Finset α)).card := ih (by omega)
      have hne := hcon k (by omega)
      have hss : (stepR edges)^[k] ({src} : Finset α) ⊂ (stepR edges)^[k + 1] {src} := by
        rw [Function.iterate_succ_apply']
        exact HasSubset.Subset.ssubset_of_ne subset_stepR (fun heq => hne heq.symm)
      have := Finset.card_lt_card hss
      omega
  have hbig := grow (edges.length + 1) le_rfl
  have hcard := Finset.card_le_card (iterate_stepR_subset_bound edges src (edges.length + 1))
  have hub : (insert src (edges.map Prod.snd).toFinset).card ≤ edges.length + 1 := by
    have h1 := Finset.card_insert_le src (edges.map Prod.snd).toFinset
    have h2 := List.toFinset_card_le (edges.map Prod.snd)
    have h3 : (edges.map Prod.snd).length = edges.length := List.length_map _ _
    omega
  omega

theorem stepR_fixed_iterate {edges : List (α × α)} {S : Finset α}
    (hfix : stepR edges S = S) : ∀ m, (stepR edges)^[m] S = S := by
  intro m
  induction m with
  | zero => rfl
  | succ m ih => rw [Function.iterate_succ_apply', ih, hfix]

theorem stepR_reachSet_fixed (edges : List (α × α)) (src : α) :
    stepR edges (reachSet edges src) = reachSet edges src := by
  obtain ⟨k, hk, hfix⟩ := exists_iterate_stepR_fixed edges src
  have h1 : reachSet edges src = (stepR edges)^[k] {src} := by
    rw [reachSet, show edges.length + 1 = (edges.length + 1 - k) + k from by omega,
      Function.iterate_add_apply]
    exact stepR_fixed_iterate hfix _
  rw [h1]
  exact hfix

theorem reach_sound {edges : List (α × α)} {src : α} :
    ∀ k, ∀ b ∈ (stepR edges)^[k] ({src} : Finset α),
      Relation.ReflTransGen (edgeRel edges) src b := by
  intro k
  induction k with
  | zero =>
    intro b hb
    rw [Function.iterate_zero_apply, Finset.mem_singleton] at hb
    exact hb ▸ Relation.ReflTransGen.refl
  | succ k ih =>
    intro b hb
    rw [Function.iterate_succ_apply'] at hb
    rcases mem_stepR.mp hb with hb | ⟨e, he, h1, h2⟩
    · exact ih b hb
    · exact (ih e.1 h1).tail (show edgeRel edges e.1 b from h2 ▸ (Prod.mk.eta ▸ he : (e.1, e.2) ∈ edges))

theorem src_mem_reachSet (edges : List (α × α)) (src : α) : src ∈ reachSet edges src :=
  subset_iterate_stepR (edges.length + 1) (Finset.mem_singleton_self src)

theorem reach_complete {edges : List (α × α)} {src b : α}
    (h : Relation.ReflTransGen (edgeRel edges) src b) : b ∈ reachSet edges src := by
  induction h with
  | refl => exact src_mem_reachSet edges src
  | @tail b c hab hbc ih =>
    rw [← stepR_reachSet_fixed edges src]
    exact mem_stepR.mpr (Or.inr ⟨(b, c), hbc, ih, rfl⟩)

theorem hasPathC_iff {edges : List (α × α)} {a b : α} :
    hasPathC edges a b = true ↔ Relation.ReflTransGen (edgeRel edges) a b := by
  rw [hasPathC, decide_eq_true_iff]
  exact ⟨fun h => reach_sound _ b h, reach_complete⟩

theorem hasPathC_self (edges : List (α × α)) (a : α) : hasPathC edges a a = true := by
  rw [hasPathC, decide_eq_true_iff]
  exact src_mem_reachSet edges a

end ReachLemmas

/-! ## Frame codec lemmas -/

theorem readLine_append {l : List Nat} (r : List Nat) (h10 : 10 ∉ l) :
    readLine (l ++ 10 :: r) = (l ++ [10], r) := by
  induction l with
  | nil => simp [readLine]
  | cons c l ih =>
    have hc : ¬c = 10 := fun hh => h10 (hh ▸ List.mem_cons_self c l)
    have h10' : 10 ∉ l := fun hm => h10 (List.mem_cons_of_mem c hm)
    simp [readLine, hc, ih h10']

theorem wordsAux_nonWS {w : List Nat} (hw : ∀ c ∈ w, isWS c = false) :
    ∀ (s acc : List Nat), wordsAux (w ++ s) acc = wordsAux s (w.reverse ++ acc) := by
  induction w with
  | nil => intro s acc; simp
  | cons c w ih =>
    intro s acc
    have hc : isWS c = false := hw c (List.mem_cons_self c w)
    have hw' : ∀ d ∈ w, isWS d = false := fun d hd => hw d (List.mem_cons_of_mem c hd)
    rw [List.cons_append, wordsAux, if_neg (by rw [hc]; exact Bool.false_ne_true), ih hw']
    simp

theorem isEmpty_false_of_ne_nil {l : List Nat} (h : l ≠ []) : l.isEmpty = false := by
  cases l with
  | nil => exact absurd rfl h
  | cons c t => rfl

theorem asciiWords_header {w1 w2 : List Nat} (hw1 : ∀ c ∈ w1, isWS c = false)
    (hw2 : ∀ c ∈ w2, isWS c = false) (h1 : w1 ≠ []) (h2 : w2 ≠ []) :
    asciiWords (w1 ++ 32 :: (w2 ++ [13, 10])) = [w1, w2] := by
  have hr1 : w1.reverse ≠ [] := by simpa using h1
  have hr2 : w2.reverse ≠ [] := by simpa using h2
  rw [asciiWords, wordsAux_nonWS hw1, List.append_nil, wordsAux,
    if_pos (show isWS 32 = true from rfl),
    if_neg (by rw [isEmpty_false_of_ne_nil hr1]; exact Bool.false_ne_true),
    List.reverse_reverse, wordsAux_nonWS hw2, List.append_nil, wordsAux,
    if_pos (show isWS 13 = true from rfl),
    if_neg (by rw [isEmpty_false_of_ne_nil hr2]; exact Bool.false_ne_true),
    List.reverse_reverse]
  rfl

theorem natDigitsAux_digit : ∀ (fuel n : Nat), ∀ c ∈ natDigitsAux fuel n, 48 ≤ c ∧ c ≤ 57 := by
  intro fuel
  induction fuel with
  | zero => intro n c hc; simp [natDigitsAux] at hc
  | succ fuel ih =>
    intro n c hc
    match n with
    | 0 => simp [natDigitsAux] at hc
    | n + 1 =>
      rw [natDigitsAux, List.mem_cons] at hc
      rcases hc with rfl | hc
      · have : (n + 1) % 10 < 10 := Nat.mod_lt _ (by omega)
        omega
      · exact ih _ c hc

theorem natDigits_digit {n : Nat} : ∀ c ∈ natDigits n, 48 ≤ c ∧ c ≤ 57 := by
  intro c hc
  rw [natDigits] at hc
  by_cases h : n = 0
  · rw [if_pos h, List.mem_singleton] at hc
    omega
  · rw [if_neg h, List.mem_reverse] at hc
    exact natDigitsAux_digit n n c hc

theorem natDigits_nonWS {n : Nat} : ∀ c ∈ natDigits n, isWS c = false := by
  intro c hc
  have h := natDigits_digit c hc
  simp only [isWS, Bool.or_eq_false_iff, decide_eq_false_iff_not]
  omega

theorem natDigits_ne_nil {n : Nat} : natDigits n ≠ [] := by
  rw [natDigits]
  by_cases h : n = 0
  · rw [if_pos h]; exact List.cons_ne_nil _ _
  · rw [if_neg h]
    match hn : n with
    | 0 => exact absurd rfl h
    | m + 1 =>
      rw [natDigitsAux]
      simp

theorem natDigitsAux_foldr : ∀ (fuel n : Nat), n ≤ fuel →
    (natDigitsAux fuel n).foldr (fun c a => a * 10 + (c - 48)) 0 = n := by
  intro fuel
  induction fuel with
  | zero => intro n hn; interval_cases n; rfl
  | succ fuel ih =>
    intro n hn
    match n with
    | 0 => rfl
    | n + 1 =>
      rw [natDigitsAux, List.foldr_cons]
      have hdiv : (n + 1) / 10 ≤ fuel := by
        have := Nat.div_lt_self (show 0 < n + 1 by omega) (show 1 < 10 by omega)
        omega
      rw [ih _ hdiv]
      have := Nat.div_add_mod (n + 1) 10
      have hm : (n + 1) % 10 < 10 := Nat.mod_lt _ (by omega)
      omega

theorem parseNatBytes_natDigits (n : Nat) : parseNatBytes (natDigits n) = some n := by
  rw [parseNatBytes, if_neg (by rw [isEmpty_false_of_ne_nil natDigits_ne_nil]; exact Bool.false_ne_true)]
  rw [if_pos]
  · congr 1
    rw [natDigits]
    by_cases h : n = 0
    · rw [if_pos h, h]; rfl
    · rw [if_neg h, List.foldl_reverse]
      exact natDigitsAux_foldr n n le_rfl
  · rw [List.all_eq_true]
    intro c hc
    have := natDigits_digit c hc
    simp only [Bool.and_eq_true, decide_eq_true_eq]
    omega

theorem readUntilBrace_append_eq : ∀ l : List Nat, (readUntilBrace l).1 ++ (readUntilBrace l).2 = l := by
  intro l
  induction l with
  | nil => rfl
  | cons c l ih =>
    by_cases hc : c = 125
    · simp [readUntilBrace, hc]
    · simp [readUntilBrace, hc, ih]

theorem readUntilBrace_ne_nil {l : List Nat} (h : l ≠ []) : (readUntilBrace l).1 ≠ [] := by
  cases l with
  | nil => exact absurd rfl h
  | cons c l =>
    by_cases hc : c = 125
    · simp [readUntilBrace, hc]
    · simp [readUntilBrace, hc]

theorem readUntilBrace_append_of_mem {l : List Nat} (r : List Nat) (h : 125 ∈ l) :
    readUntilBrace (l ++ r) = ((readUntilBrace l).1, (readUntilBrace l).2 ++ r) := by
  induction l with
  | nil => exact absurd h (List.not_mem_nil 125)
  | cons c l ih =>
    by_cases hc : c = 125
    · simp [readUntilBrace, hc]
    · have hl : 125 ∈ l := by
        rcases List.mem_cons.mp h with hh | hh
        · exact absurd hh.symm hc
        · exact hh
      simp [readUntilBrace, hc, ih hl]

theorem readBodyLoop_whole : ∀ (k : Nat) (body acc : List Nat), body.length = k →
    readBodyLoop k body acc = some (acc ++ body, []) := by
  intro k
  induction k using Nat.strong_induction_on with
  | _ k ih =>
    intro body acc hlen
    cases k with
    | zero =>
      have hb : body = [] := List.length_eq_zero.mp hlen
      subst hb
      simp [readBodyLoop]
    | succ k =>
      have hne : body ≠ [] := by intro hh; rw [hh] at hlen; simp at hlen
      rcases hrb : readUntilBrace body with ⟨t, d⟩
      have hsplit : t ++ d = body := by rw [← readUntilBrace_append_eq body, hrb]
      have htne : t ≠ [] := by have h2 := readUntilBrace_ne_nil hne; rw [hrb] at h2; exact h2
      have htpos : 0 < t.length := List.length_pos.mpr htne
      have hlen1 : t.length + d.length = k + 1 := by
        rw [← List.length_append, hsplit, hlen]
      rw [readBodyLoop, hrb]
      rw [dif_neg (show ¬t.length = 0 by omega)]
      rw [if_neg (show ¬t.length > k + 1 by omega)]
      show readBodyLoop (k + 1 - t.length) d (acc ++ t) = some (acc ++ body, [])
      rw [ih (k + 1 - t.length) (by omega) d (acc ++ t) (by omega)]
      rw [List.append_assoc, hsplit]

theorem readBodyLoop_brace : ∀ (k : Nat) (body rest acc : List Nat), body.length = k →
    body.getLast? = some 125 →
    readBodyLoop k (body ++ rest) acc = some (acc ++ body, rest) := by
  intro k
  induction k using Nat.strong_induction_on with
  | _ k ih =>
    intro body rest acc hlen hlast
    obtain ⟨ys, hys⟩ := List.getLast?_eq_some_iff.mp hlast
    have hmem : 125 ∈ body := by
      rw [hys]
      exact List.mem_append_right ys (List.mem_singleton_self 125)
    cases k with
    | zero =>
      exfalso
      have hb : body = [] := List.length_eq_zero.mp hlen
      rw [hb] at hys
      exact absurd hys.symm (by simp)
    | succ k =>
      have hne : body ≠ [] := by intro hh; rw [hh] at hlen; simp at hlen
      rcases hrb : readUntilBrace body with ⟨t, d⟩
      have hsplit : t ++ d = body := by rw [← readUntilBrace_append_eq body, hrb]
      have htne : t ≠ [] := by have h2 := readUntilBrace_ne_nil hne; rw [hrb] at h2; exact h2
      have htpos : 0 < t.length := List.length_pos.mpr htne
      have hlen1 : t.length + d.length = k + 1 := by
        rw [← List.length_append, hsplit, hlen]
      have heq2 : readUntilBrace (body ++ rest) = (t, d ++ rest) := by
        rw [readUntilBrace_append_of_mem rest hmem, hrb]
      rw [readBodyLoop, heq2]
      rw [dif_neg (show ¬t.length = 0 by omega)]
      rw [if_neg (show ¬t.length > k + 1 by omega)]
      show readBodyLoop (k + 1 - t.length) (d ++ rest) (acc ++ t) = some (acc ++ body, rest)
      by_cases hrem : d = []
      · subst hrem
        rw [List.append_nil] at hsplit
        simp only [List.length_nil] at hlen1
        rw [List.nil_append, show k + 1 - t.length = 0 from by omega, readBodyLoop, hsplit]
      · have hlast2 : d.getLast? = some 125 := by
          have h1 : body.getLast? = d.getLast?.or t.getLast? := by
            rw [← hsplit, List.getLast?_append]
          obtain ⟨w, hw⟩ := Option.isSome_iff_exists.mp (show d.getLast?.isSome = true from by
            cases d with
            | nil => exact absurd rfl hrem
            | cons z zs => simp [List.getLast?_isSome])
          rw [hlast, hw, show (some w).or t.getLast? = some w from rfl] at h1
          rw [hw, ← h1]
        rw [ih (k + 1 - t.length) (by omega) d rest (acc ++ t) (by omega) hlast2]
        rw [List.append_assoc, hsplit]

theorem clToken_nonWS : ∀ c ∈ clToken, isWS c = false := by decide

theorem clToken_ne_nil : clToken ≠ [] := by decide

theorem decodeLoop_clStep (fuel n : Nat) (tail : List Nat) :
    decodeLoop (fuel + 1) ((clToken ++ 32 :: (natDigits n ++ [13])) ++ 10 :: tail) none none =
      decodeLoop fuel tail (some n) none := by
  have hcl : clToken = 67 :: [111, 110, 116, 101, 110, 116, 45, 76, 101, 110, 103, 116, 104, 58] := by
    decide
  have hl10 : (10 : Nat) ∉ clToken ++ 32 :: (natDigits n ++ [13]) := by
    intro hmem
    rcases List.mem_append.mp hmem with hh | hh
    · exact absurd hh (by decide)
    · rcases List.mem_cons.mp hh with hh | hh
      · exact absurd hh (by decide)
      · rcases List.mem_append.mp hh with hh | hh
        · have := natDigits_digit 10 hh
          omega
        · exact absurd hh (by decide)
  have hline := readLine_append (l := clToken ++ 32 :: (natDigits n ++ [13])) tail hl10
  have hwords : asciiWords ((clToken ++ 32 :: (natDigits n ++ [13])) ++ [10]) =
      [clToken, natDigits n] := by
    rw [show (clToken ++ 32 :: (natDigits n ++ [13])) ++ [10] =
        clToken ++ 32 :: (natDigits n ++ [13, 10]) from by simp]
    exact asciiWords_header clToken_nonWS natDigits_nonWS clToken_ne_nil natDigits_ne_nil
  simp only [hcl, List.cons_append, List.nil_append] at hline hwords ⊢
  simp only [decodeLoop, hline, hwords, hcl, eq_self_iff_true, if_true, parseNatBytes_natDigits]

theorem decodeLoop_blankStep (fuel n : Nat) (tail : List Nat) :
    decodeLoop (fuel + 1) (13 :: 10 :: tail) (some n) none = readBodyLoop n tail [] := by
  have hline : readLine (13 :: 10 :: tail) = ([13, 10], tail) := by
    rw [show (13 : Nat) :: 10 :: tail = [13] ++ 10 :: tail from rfl,
      readLine_append tail (by decide)]
    rfl
  have hwords : asciiWords [13, 10] = [] := by decide
  simp only [decodeLoop, hline, hwords]

theorem decodeLoop_headerSteps (fuel n : Nat) (tail : List Nat) (hf : 2 ≤ fuel) :
    decodeLoop fuel ((clToken ++ 32 :: (natDigits n ++ [13])) ++ 10 :: (13 :: 10 :: tail)) none none
      = readBodyLoop n tail [] := by
  obtain ⟨m, rfl⟩ : ∃ m, fuel = m + 2 := ⟨fuel - 2, by omega⟩
  rw [show m + 2 = (m + 1) + 1 from rfl, decodeLoop_clStep, decodeLoop_blankStep]

theorem decodeFrame_encodeFrame (body rest : List Nat) :
    decodeFrame (encodeFrame body ++ rest) = readBodyLoop body.length (body ++ rest) [] := by
  have hshape : encodeFrame body ++ rest =
      (clToken ++ 32 :: (natDigits body.length ++ [13])) ++ 10 :: (13 :: 10 :: (body ++ rest)) := by
    rw [encodeFrame,
      show strBytes "Content-Length: " = clToken ++ [32] from by decide,
      show strBytes "\r\n\r\n" = [13, 10, 13, 10] from by decide]
    simp
  rw [decodeFrame, hshape, decodeLoop_headerSteps]
  simp [List.length_append]
  omega

/-- Claim C1: for every body, decoding the encoded frame
`Content-Length: <n>\r\n` + blank line + body reproduces the body exactly and
consumes exactly `Content-Length` bytes, leaving any following stream content
(`rest`) untouched — in particular bodies whose string values contain `}`
bytes are not truncated early.  The hypothesis covers the two framings of
"the encoded frame of that body": either the frame is the whole stream
(`rest = []`), or arbitrary data follows and the body — a JSON-RPC object —
ends with the `}` byte 125, which is where the decoder's `read_until(b'}')`
chunks are guaranteed to stop on the declared byte count. -/
theorem c1_frame_roundtrip (body rest : List Nat)
    (h : rest = [] ∨ body.getLast? = some 125) :
    decodeFrame (encodeFrame body ++ rest) = some (body, rest) := by
  rw [decodeFrame_encodeFrame]
  rcases h with rfl | hbrace
  · rw [List.append_nil, readBodyLoop_whole body.length body [] rfl, List.nil_append]
  · rw [readBodyLoop_brace body.length body rest [] rfl hbrace, List.nil_append]

/-- Witness for C1 at the body `{"a":"}"}` — a `}` inside a string value —
followed by one extra byte of stream content. -/
theorem c1_frame_roundtrip_witness :
    decodeFrame (encodeFrame [123, 34, 97, 34, 58, 34, 125, 34, 125] ++ [67]) =
      some ([123, 34, 97, 34, 58, 34, 125, 34, 125], [67]) :=
  c1_frame_roundtrip [123, 34, 97, 34, 58, 34, 125, 34, 125] [67] (Or.inr (by decide))

/-! ## JSON-RPC client lemmas -/

theorem processInbox_inc {V : Type} [DecidableEq V] (c : Int) :
    ∀ (inbox : List (RecvItem V)) (out : Except ClientErr V) (inc : Bool),
      processInbox c inbox = some (out, inc) → inc = isResponseOutcome (some out) := by
  intro inbox
  induction inbox with
  | nil => intro out inc h; exact absurd h (by simp [processInbox])
  | cons item rest ih =>
    intro out inc h
    match item with
    | .recvErr =>
      rw [processInbox] at h
      injection h with h
      rw [Prod.mk.injEq] at h
      rw [← h.1, ← h.2]
      rfl
    | .strParseErr =>
      rw [processInbox] at h
      injection h with h
      rw [Prod.mk.injEq] at h
      rw [← h.1, ← h.2]
      rfl
    | .msg m =>
      rw [processInbox] at h
      by_cases hm : isOurResponse c m = true
      · rw [if_pos hm] at h
        match hp : m.parse with
        | none =>
          rw [hp] at h
          injection h with h
          rw [Prod.mk.injEq] at h
          rw [← h.1, ← h.2]
          rfl
        | some (.result v) =>
          rw [hp] at h
          injection h with h
          rw [Prod.mk.injEq] at h
          rw [← h.1, ← h.2]
          rfl
        | some (.rpcError code msg) =>
          rw [hp] at h
          injection h with h
          rw [Prod.mk.injEq] at h
          rw [← h.1, ← h.2]
          rfl
      · rw [if_neg hm] at h
        exact ih out inc h

theorem request_counter {V : Type} [DecidableEq V] (st : ClientState) (s1 s2 : Bool)
    (inbox : List (RecvItem V)) :
    (request st s1 s2 inbox).1.requestIdCounter =
      st.requestIdCounter +
        (if isResponseOutcome (request st s1 s2 inbox).2.2 then 1 else 0) := by
  cases s1 with
  | false => simp [request, isResponseOutcome]
  | true =>
    cases s2 with
    | false => simp [request, isResponseOutcome]
    | true =>
      rw [request]
      simp only [Bool.not_true, Bool.false_eq_true, if_false]
      match hp : processInbox st.requestIdCounter inbox with
      | none => simp [isResponseOutcome]
      | some (out, inc) =>
        have := processInbox_inc st.requestIdCounter inbox out inc hp
        simp only [this]

theorem request_aid {V : Type} [DecidableEq V] (st : ClientState) (s1 s2 : Bool)
    (inbox : List (RecvItem V)) :
    (request st s1 s2 inbox).2.1 = if s1 then some st.requestIdCounter else none := by
  cases s1 with
  | false => simp [request]
  | true =>
    cases s2 with
    | false => simp [request]
    | true =>
      rw [request]
      simp only [Bool.not_true, Bool.false_eq_true, if_false, if_true]
      match hp : processInbox st.requestIdCounter inbox with
      | none => rfl
      | some (out, inc) => rfl

theorem runSession_ids {V : Type} [DecidableEq V] :
    ∀ (reqs : List (Bool × Bool × List (RecvItem V))) (c : Int) (k : Nat)
      (spec : Bool × Bool × List (RecvItem V))
      (entry : Option Int × Option (Except ClientErr V)),
      reqs[k]? = some spec → (runSession ⟨c⟩ reqs)[k]? = some entry →
      entry.1 = if spec.1 then
          some (c + (((runSession ⟨c⟩ reqs).take k).countP (fun p => isResponseOutcome p.2) : Int))
        else none := by
  intro reqs
  induction reqs with
  | nil => intro c k spec entry h1 h2; simp at h1
  | cons req rest ih =>
    intro c k spec entry h1 h2
    match k with
    | 0 =>
      rw [List.getElem?_cons_zero] at h1
      injection h1 with h1
      rw [runSession] at h2
      rw [List.getElem?_cons_zero] at h2
      injection h2 with h2
      rw [← h2, ← h1, List.take_zero, List.countP_nil]
      simp only [Nat.cast_zero, Int.add_zero]
      exact request_aid (⟨c⟩ : ClientState) req.1 req.2.1 req.2.2
    | j + 1 =>
      rw [List.getElem?_cons_succ] at h1
      rw [runSession, List.getElem?_cons_succ] at h2
      have hcounter := request_counter (⟨c⟩ : ClientState) req.1 req.2.1 req.2.2
      have hstate : (request (⟨c⟩ : ClientState) req.1 req.2.1 req.2.2).1 =
          (⟨c + (if isResponseOutcome (request (⟨c⟩ : ClientState) req.1 req.2.1 req.2.2).2.2
            then 1 else 0)⟩ : ClientState) := by
        cases hr : (request (⟨c⟩ : ClientState) req.1 req.2.1 req.2.2).1 with
        | mk counter =>
          have : counter = c + (if isResponseOutcome
              (request (⟨c⟩ : ClientState) req.1 req.2.1 req.2.2).2.2 then 1 else 0) := by
            rw [← hcounter, hr]
          rw [this]
      rw [hstate] at h2
      have := ih (c + (if isResponseOutcome
        (request (⟨c⟩ : ClientState) req.1 req.2.1 req.2.2).2.2 then 1 else 0)) j spec entry h1 h2
      rw [this, runSession, hstate, List.take_succ_cons, List.countP_cons]
      by_cases hspec : spec.1 = true
      · rw [if_pos hspec, if_pos hspec]
        congr 1
        cases hro : isResponseOutcome (request (⟨c⟩ : ClientState) req.1 req.2.1 req.2.2).2.2 <;>
          simp [hro] <;> omega
      · rw [Bool.not_eq_true] at hspec
        rw [hspec]
        rfl

theorem processInbox_correlation {V : Type} [DecidableEq V] (c : Int) :
    ∀ (inbox : List (RecvItem V)) (out : Except ClientErr V) (inc : Bool),
      processInbox c inbox = some (out, inc) → isResponseOutcome (some out) = true →
      ∃ (k : Nat) (m : InMsg V) (r : JsonRpcResultM V), inbox[k]? = some (RecvItem.msg m) ∧
        m.hasMethod = false ∧ m.idField = some c ∧ m.parse = some r ∧ out = outcomeOf r ∧
        ∀ j < k, ∃ (m2 : InMsg V), inbox[j]? = some (RecvItem.msg m2) ∧ isOurResponse c m2 = false := by
  intro inbox
  induction inbox with
  | nil => intro out inc h _; exact absurd h (by simp [processInbox])
  | cons item rest ih =>
    intro out inc h hresp
    match item with
    | .recvErr =>
      rw [processInbox] at h
      injection h with h
      rw [Prod.mk.injEq] at h
      rw [← h.1] at hresp
      exact absurd hresp (by simp [isResponseOutcome])
    | .strParseErr =>
      rw [processInbox] at h
      injection h with h
      rw [Prod.mk.injEq] at h
      rw [← h.1] at hresp
      exact absurd hresp (by simp [isResponseOutcome])
    | .msg m =>
      rw [processInbox] at h
      by_cases hm : isOurResponse c m = true
      · rw [if_pos hm] at h
        have hmm := hm
        rw [isOurResponse, Bool.and_eq_true, Bool.not_eq_true', decide_eq_true_iff] at hmm
        match hp : m.parse with
        | none =>
          rw [hp] at h
          injection h with h
          rw [Prod.mk.injEq] at h
          rw [← h.1] at hresp
          exact absurd hresp (by simp [isResponseOutcome])
        | some (.result v) =>
          rw [hp] at h
          injection h with h
          rw [Prod.mk.injEq] at h
          refine ⟨0, m, .result v, List.getElem?_cons_zero, hmm.1, hmm.2, hp, h.1.symm, ?_⟩
          intro j hj
          omega
        | some (.rpcError code msg) =>
          rw [hp] at h
          injection h with h
          rw [Prod.mk.injEq] at h
          refine ⟨0, m, .rpcError code msg, List.getElem?_cons_zero, hmm.1, hmm.2, hp, h.1.symm, ?_⟩
          intro j hj
          omega
      · rw [if_neg hm] at h
        obtain ⟨k, m2, r, hk, hmeth, hid, hparse, hout, hprev⟩ := ih out inc h hresp
        refine ⟨k + 1, m2, r, by rw [List.getElem?_cons_succ]; exact hk, hmeth, hid, hparse, hout, ?_⟩
        intro j hj
        match j with
        | 0 =>
          exact ⟨m, List.getElem?_cons_zero, by rw [Bool.not_eq_true] at hm; exact hm⟩
        | j + 1 =>
          rw [List.getElem?_cons_succ]
          exact hprev j (by omega)

/-- Claim C3: a `Client::request` call that completes with a response value
(successful result or JSON-RPC error object) does so only through an inbound
message whose body lacks a `method` field and whose `id` equals the id
assigned to the request; every earlier inbound message fails that test and is
discarded, never delivered to the caller. -/
theorem c3_request_correlation {V : Type} [DecidableEq V] (st : ClientState)
    (inbox : List (RecvItem V)) (out : Except ClientErr V)
    (hout : (request st true true inbox).2.2 = some out)
    (hresp : isResponseOutcome (some out) = true) :
    ∃ (k : Nat) (m : InMsg V) (r : JsonRpcResultM V), inbox[k]? = some (RecvItem.msg m) ∧
      m.hasMethod = false ∧ m.idField = some st.requestIdCounter ∧
      m.parse = some r ∧ out = outcomeOf r ∧
      ∀ j < k, ∃ (m2 : InMsg V), inbox[j]? = some (RecvItem.msg m2) ∧
        isOurResponse st.requestIdCounter m2 = false := by
  rw [request] at hout
  simp only [Bool.not_true, Bool.false_eq_true, if_false] at hout
  match hp : processInbox st.requestIdCounter inbox with
  | none => rw [hp] at hout; exact absurd hout (by simp)
  | some (pout, pinc) =>
    rw [hp] at hout
    injection hout with hout
    rw [← hout]
    exact processInbox_correlation st.requestIdCounter inbox pout pinc hp (hout ▸ hresp)

/-- Witness for C3: an inbox interleaving a notification, a response for a
different id, and the matching response for id 0; the call returns the
matching response's payload and the first two messages are discarded. -/
theorem c3_request_correlation_witness :
    ∃ (k : Nat) (m : InMsg Int) (r : JsonRpcResultM Int),
      ([.msg ⟨true, none, none⟩, .msg ⟨false, some 1, some (.result 9)⟩,
        .msg ⟨false, some 0, some (.result 7)⟩] : List (RecvItem Int))[k]? = some (RecvItem.msg m) ∧
      m.hasMethod = false ∧ m.idField = some (⟨0⟩ : ClientState).requestIdCounter ∧
      m.parse = some r ∧ (Except.ok 7 : Except ClientErr Int) = outcomeOf r ∧
      ∀ j < k, ∃ (m2 : InMsg Int),
        ([.msg ⟨true, none, none⟩, .msg ⟨false, some 1, some (.result 9)⟩,
          .msg ⟨false, some 0, some (.result 7)⟩] : List (RecvItem Int))[j]? = some (RecvItem.msg m2) ∧
        isOurResponse (⟨0⟩ : ClientState).requestIdCounter m2 = false :=
  c3_request_correlation ⟨0⟩
    [.msg ⟨true, none, none⟩, .msg ⟨false, some 1, some (.result 9)⟩,
      .msg ⟨false, some 0, some (.result 7)⟩]
    (.ok 7) (by decide) (by decide)

/-- Claim C4 counterexample: ids are not strictly increasing across
successive requests.  The first request on a fresh session is issued id 0 but
fails while parsing the matching inbound value `{"id": 0}` (no mandatory
`jsonrpc` field), so the counter is not advanced and the second request is
issued id 0 again — 0 is not strictly greater than 0. -/
theorem c4_counterexample :
    (request (V := Int) ⟨0⟩ true true [.msg msgIdOnly]).2.1 = some 0 ∧
    (request (V := Int) ⟨0⟩ true true [.msg msgIdOnly]).2.2 =
      some (.error .parseFailed) ∧
    (request (V := Int) (request (V := Int) ⟨0⟩ true true [.msg msgIdOnly]).1 true true
        [.msg msgOk0]).2.1 = some 0 := by
  refine ⟨by decide, by decide, by decide⟩

/-- Claim C4 (amended): on one client session ids start at 0 and are
non-negative; the id issued to the `k`-th request equals the number of
earlier requests that completed with a parsed matching response (whether a
success or a JSON-RPC error object), so ids are strictly increasing across
such completions but are *reused* after a request that fails earlier
(serialization, send, receive or parse failure); a response is only ever
matched against the id issued to the in-flight request itself (theorem
`c3_request_correlation`), so no response is matched to an id that was never
issued. -/
theorem c4_session_ids {V : Type} [DecidableEq V]
    (reqs : List (Bool × Bool × List (RecvItem V))) (k : Nat)
    (spec : Bool × Bool × List (RecvItem V))
    (entry : Option Int × Option (Except ClientErr V))
    (h1 : reqs[k]? = some spec)
    (h2 : (runSession (⟨0⟩ : ClientState) reqs)[k]? = some entry) :
    entry.1 = if spec.1 then
        some ((((runSession (⟨0⟩ : ClientState) reqs).take k).countP
          (fun p => isResponseOutcome p.2) : Int))
      else none := by
  have := runSession_ids reqs 0 k spec entry h1 h2
  simpa using this

/-- Witness for C4 (amended): a three-request session — success, parse
failure, success — issues ids 0, 1, 1. -/
theorem c4_session_ids_witness :
    ((runSession (⟨0⟩ : ClientState)
        [(true, true, [.msg msgOk0]), (true, true, [.msg ⟨false, some 1, none⟩]),
          (true, true, [.msg ⟨false, some 1, some (.result 3)⟩])]).get ⟨2, by decide⟩).1 =
      some 1 := by
  have h := c4_session_ids (V := Int)
    [(true, true, [.msg msgOk0]), (true, true, [.msg ⟨false, some 1, none⟩]),
      (true, true, [.msg ⟨false, some 1, some (.result 3)⟩])] 2
    (true, true, [.msg ⟨false, some 1, some (.result 3)⟩])
    ((runSession (⟨0⟩ : ClientState)
        [(true, true, [.msg msgOk0]), (true, true, [.msg ⟨false, some 1, none⟩]),
          (true, true, [.msg ⟨false, some 1, some (.result 3)⟩])]).get ⟨2, by decide⟩)
    (by decide) (by decide)
  rw [h]
  decide

/-- Claim C10: one `Client::request` call advances `request_id_counter` by
exactly one when it completes with a parsed matching response — including a
response carrying a JSON-RPC error object — and leaves the counter unchanged
when it returns early on a serialization, send, receive, or parse failure;
`Client::notify` never changes the counter. -/
theorem c10_counter_frame {V : Type} [DecidableEq V] (st : ClientState) (serOk sendOk : Bool)
    (inbox : List (RecvItem V)) (s1 s2 : Bool) :
    (∀ v, (request st serOk sendOk inbox).2.2 = some (.ok v) →
        (request st serOk sendOk inbox).1.requestIdCounter = st.requestIdCounter + 1) ∧
    (∀ code msg, (request st serOk sendOk inbox).2.2 = some (.error (.rpc code msg)) →
        (request st serOk sendOk inbox).1.requestIdCounter = st.requestIdCounter + 1) ∧
    (∀ e, (request st serOk sendOk inbox).2.2 = some (.error e) → isEarlyFailure e = true →
        (request st serOk sendOk inbox).1.requestIdCounter = st.requestIdCounter) ∧
    (notify st s1 s2).1 = st := by
  refine ⟨?_, ?_, ?_, rfl⟩
  · intro v hv
    rw [request_counter, hv]
    rfl
  · intro code msg hv
    rw [request_counter, hv]
    rfl
  · intro e hv he
    rw [request_counter, hv]
    match e, he with
    | .serializeFailed, _ => simp [isResponseOutcome]
    | .sendFailed, _ => simp [isResponseOutcome]
    | .recvFailed, _ => simp [isResponseOutcome]
    | .parseFailed, _ => simp [isResponseOutcome]

/-- Witness for C10: concrete counter values after a successful request
(counter 5 → 6), after a JSON-RPC error response (counter 5 → 6), after a
parse failure (counter unchanged), and after a notification. -/
theorem c10_counter_frame_witness :
    (request (V := Int) ⟨5⟩ true true [.msg ⟨false, some 5, some (.result 7)⟩]).1.requestIdCounter =
        5 + 1 ∧
    (request (V := Int) ⟨5⟩ true true
        [.msg ⟨false, some 5, some (.rpcError 3 [])⟩]).1.requestIdCounter = 5 + 1 ∧
    (request (V := Int) ⟨5⟩ true true [.strParseErr]).1.requestIdCounter = 5 ∧
    (notify ⟨5⟩ true true).1 = ⟨5⟩ :=
  ⟨(c10_counter_frame ⟨5⟩ true true [.msg ⟨false, some 5, some (.result 7)⟩] true true).1 7
      (by decide),
    (c10_counter_frame ⟨5⟩ true true [.msg ⟨false, some 5, some (.rpcError 3 [])⟩] true true).2.1
      3 [] (by decide),
    (c10_counter_frame ⟨5⟩ true true [.strParseErr] true true).2.2.1 .parseFailed (by decide)
      (by decide),
    (c10_counter_frame (V := Int) ⟨5⟩ true true [] true true).2.2.2⟩

/-! ## Call usage analyzer lemmas -/

theorem card_filter_range (p : Nat → Bool) (n : Nat) :
    ((Finset.range n).filter (fun j => p j = true)).card = (List.range n).countP p := by
  induction n with
  | zero => simp
  | succ n ih =>
    rw [Finset.range_succ, List.range_succ, Finset.filter_insert, List.countP_append]
    by_cases hp : p n = true
    · rw [if_pos hp, Finset.card_insert_of_not_mem (by simp), ih]
      simp [List.countP_cons, hp]
    · rw [if_neg hp, ih]
      simp [List.countP_cons, hp]

theorem calc_fn_usage_eq {fn_items : List CallHierarchyItem}
    {fn_calls : List (CallHierarchyItem × CallHierarchyItem)} {edges : List (Nat × Nat)}
    (h : resolveEdges fn_items fn_calls = some edges) :
    calc_fn_usage fn_items fn_calls =
      some ((fn_items.zip (List.range fn_items.length)).map (fun node =>
        (node.1,
          (((fn_items.zip (List.range fn_items.length)).countP
              (fun other => hasPathC edges other.2 node.2) - 1 : Nat) : ℚ) /
            ((fn_items.zip (List.range fn_items.length)).length : ℚ) * 100))) := by
  rw [calc_fn_usage, h]

theorem zip_range_countP (fn_items : List CallHierarchyItem) (edges : List (Nat × Nat)) (i : Nat) :
    (fn_items.zip (List.range fn_items.length)).countP
        (fun other => hasPathC edges other.2 i) =
      (List.range fn_items.length).countP (fun j => hasPathC edges j i) := by
  have h1 : (List.range fn_items.length).countP (fun j => hasPathC edges j i) =
      ((fn_items.zip (List.range fn_items.length)).map Prod.snd).countP
        (fun j => hasPathC edges j i) := by
    rw [List.map_snd_zip _ _ (by simp)]
  rw [h1, List.countP_map]
  rfl

theorem zip_range_getElem? {fn_items : List CallHierarchyItem} {i : Nat}
    (hi : i < fn_items.length) :
    (fn_items.zip (List.range fn_items.length))[i]? = some (fn_items.get ⟨i, hi⟩, i) := by
  have hlen : i < (fn_items.zip (List.range fn_items.length)).length := by
    simp [List.length_zip]
    omega
  rw [List.getElem?_eq_getElem hlen, List.getElem_zip]
  congr 1
  rw [Prod.mk.injEq]
  exact ⟨by rw [List.get_eq_getElem], List.getElem_range i (by simpa using hi)⟩

theorem countP_path_self (edges : List (Nat × Nat)) {fn_items : List CallHierarchyItem} {i : Nat}
    (hi : i < fn_items.length) :
    1 ≤ (List.range fn_items.length).countP (fun j => hasPathC edges j i) := by
  rw [← card_filter_range]
  have : i ∈ (Finset.range fn_items.length).filter (fun j => hasPathC edges j i = true) := by
    rw [Finset.mem_filter, Finset.mem_range]
    exact ⟨hi, hasPathC_self edges i⟩
  exact Finset.card_pos.mpr ⟨i, this⟩

theorem filter_erase_path {fn_items : List CallHierarchyItem} {edges : List (Nat × Nat)} {i : Nat}
    (hi : i < fn_items.length) :
    ((Finset.range fn_items.length).filter
        (fun j => j ≠ i ∧ hasPathC edges j i = true)).card =
      (List.range fn_items.length).countP (fun j => hasPathC edges j i) - 1 := by
  have hmem : i ∈ (Finset.range fn_items.length).filter (fun j => hasPathC edges j i = true) := by
    rw [Finset.mem_filter, Finset.mem_range]
    exact ⟨hi, hasPathC_self edges i⟩
  have herase : (Finset.range fn_items.length).filter
      (fun j => j ≠ i ∧ hasPathC edges j i = true) =
      ((Finset.range fn_items.length).filter (fun j => hasPathC edges j i = true)).erase i := by
    ext j
    rw [Finset.mem_erase, Finset.mem_filter, Finset.mem_filter]
    constructor
    · rintro ⟨hr, hne, hp⟩
      exact ⟨hne, hr, hp⟩
    · rintro ⟨hne, hr, hp⟩
      exact ⟨hr, hne, hp⟩
  rw [herase, Finset.card_erase_of_mem hmem, card_filter_range]

/-- Claim C2 counterexample: the claimed score formula under structural node
identity on the selection range fails when the item list contains the same
callable twice.  `dupItems = [itemA, itemB, itemA2]` lists the callable at
range `rngA` twice (`itemA` and `itemA2` have equal selection ranges) and
`dupCalls` records that `itemB` calls it.  `calc_fn_usage` gives each list
entry its own graph node and attaches the edge only to the first matching
node, so the entry `itemA2` is assigned score `0`, while the spec formula —
nodes identified structurally, `M = itemB ≠ N` reaching `N` through the call
edge — assigns the `rngA` node the nonzero score `100 × 1 / 2 = 50`
(`specUsageScore`). -/
theorem c2_counterexample :
    calc_fn_usage dupItems dupCalls =
      some [(itemA, 100 / 3), (itemB, 0), (itemA2, 0)] ∧
    specUsageScore dupItems dupCalls itemA2 = 50 ∧ (50 : ℚ) ≠ 0 := by
  have hres : resolveEdges dupItems dupCalls = some [(1, 0)] := by decide
  have hzip : dupItems.zip (List.range dupItems.length) = [(itemA, 0), (itemB, 1), (itemA2, 2)] := by
    decide
  have hc0 : ([(itemA, 0), (itemB, 1), (itemA2, 2)] : List (CallHierarchyItem × Nat)).countP
      (fun other => hasPathC [(1, 0)] other.2 0) = 2 := by decide
  have hc1 : ([(itemA, 0), (itemB, 1), (itemA2, 2)] : List (CallHierarchyItem × Nat)).countP
      (fun other => hasPathC [(1, 0)] other.2 1) = 1 := by decide
  have hc2 : ([(itemA, 0), (itemB, 1), (itemA2, 2)] : List (CallHierarchyItem × Nat)).countP
      (fun other => hasPathC [(1, 0)] other.2 2) = 1 := by decide
  refine ⟨?_, ?_, by norm_num⟩
  · rw [calc_fn_usage_eq hres, hzip]
    simp only [List.map_cons, List.map_nil]
    norm_num [hc0, hc1, hc2]
  · have hfil : ((dupItems.map (fun it => it.selectionRange)).toFinset.filter
        (fun r => r ≠ itemA2.selectionRange ∧
          hasPathC (dupCalls.map (fun c => (c.1.selectionRange, c.2.selectionRange))) r
            itemA2.selectionRange = true)).card = 1 := by decide
    have hns : (dupItems.map (fun it => it.selectionRange)).toFinset.card = 2 := by decide
    simp only [specUsageScore]
    rw [hfil, hns]
    norm_num

/-- Claim C2 (amended): when every call edge's endpoints match some item's
selection range (otherwise `calc_fn_usage` panics), node identity is per list
entry — each endpoint resolves to the *first* item with an equal selection
range — and the entry at index `i` is assigned the score
`100 × |{indices j ≠ i with a directed path from node j to node i}| / (item
count)`; the executable path test agrees with the reflexive-transitive
closure of the resolved edge relation. -/
theorem c2_usage_formula (fn_items : List CallHierarchyItem)
    (fn_calls : List (CallHierarchyItem × CallHierarchyItem)) (edges : List (Nat × Nat))
    (h : resolveEdges fn_items fn_calls = some edges) (i : Nat) (hi : i < fn_items.length) :
    ∃ scores, calc_fn_usage fn_items fn_calls = some scores ∧
      scores[i]? = some (fn_items.get ⟨i, hi⟩,
        100 * (((Finset.range fn_items.length).filter
            (fun j => j ≠ i ∧ hasPathC edges j i = true)).card : ℚ) / (fn_items.length : ℚ)) ∧
      (∀ a b : Nat, hasPathC edges a b = true ↔ Relation.ReflTransGen (edgeRel edges) a b) := by
  refine ⟨_, calc_fn_usage_eq h, ?_, fun a b => hasPathC_iff⟩
  rw [List.getElem?_map, zip_range_getElem? hi, Option.map_some']
  congr 1
  rw [Prod.mk.injEq]
  refine ⟨rfl, ?_⟩
  rw [zip_range_countP, filter_erase_path hi,
    show (fn_items.zip (List.range fn_items.length)).length = fn_items.length from by simp]
  have h1 := countP_path_self edges hi
  set C := (List.range fn_items.length).countP (fun j => hasPathC edges j i) with hC
  ring

/-- Claim C8: every usage score lies in `[0, 100]`, and a node no other node
reaches through the call edges scores exactly `0`; the executable path test
agrees with the reflexive-transitive closure of the resolved edge relation. -/
theorem c8_usage_bounds (fn_items : List CallHierarchyItem)
    (fn_calls : List (CallHierarchyItem × CallHierarchyItem)) (edges : List (Nat × Nat))
    (scores : List (CallHierarchyItem × ℚ))
    (hedges : resolveEdges fn_items fn_calls = some edges)
    (hcalc : calc_fn_usage fn_items fn_calls = some scores)
    (hne : fn_items ≠ []) :
    (∀ p ∈ scores, 0 ≤ p.2 ∧ p.2 ≤ 100) ∧
    (∀ i, i < fn_items.length →
      (∀ j ∈ Finset.range fn_items.length, j ≠ i → hasPathC edges j i = false) →
      ∃ it, scores[i]? = some (it, 0)) ∧
    (∀ a b : Nat, hasPathC edges a b = true ↔ Relation.ReflTransGen (edgeRel edges) a b) := by
  have hnpos : 0 < fn_items.length := List.length_pos.mpr hne
  have hq : (0 : ℚ) < (fn_items.length : ℚ) := by exact_mod_cast hnpos
  rw [calc_fn_usage_eq hedges] at hcalc
  injection hcalc with hcalc
  refine ⟨?_, ?_, fun a b => hasPathC_iff⟩
  · intro p hp
    rw [← hcalc] at hp
    obtain ⟨node, hnode, hfp⟩ := List.mem_map.mp hp
    rw [← hfp]
    have hzl : (fn_items.zip (List.range fn_items.length)).length = fn_items.length := by simp
    set C := (fn_items.zip (List.range fn_items.length)).countP
      (fun other => hasPathC edges other.2 node.2) with hCdef
    have hCle : C ≤ fn_items.length := by
      have := List.countP_le_length
        (fun other => hasPathC edges other.2 node.2)
        (l := fn_items.zip (List.range fn_items.length))
      omega
    constructor
    · refine mul_nonneg (div_nonneg ?_ ?_) (by norm_num)
      · exact_mod_cast Nat.zero_le _
      · rw [hzl]
        exact le_of_lt hq
    · have hfrac : (((C - 1 : Nat) : ℚ)) / ((fn_items.zip (List.range fn_items.length)).length : ℚ) ≤ 1 := by
        rw [hzl]
        rw [div_le_one hq]
        exact_mod_cast by omega
      calc (((C - 1 : Nat) : ℚ)) / ((fn_items.zip (List.range fn_items.length)).length : ℚ) * 100
          ≤ 1 * 100 := by
            exact mul_le_mul_of_nonneg_right hfrac (by norm_num)
        _ = 100 := by norm_num
  · intro i hilt hunreach
    have hCone : (List.range fn_items.length).countP (fun j => hasPathC edges j i) = 1 := by
      have hset : (Finset.range fn_items.length).filter (fun j => hasPathC edges j i = true) =
          {i} := by
        ext j
        rw [Finset.mem_filter, Finset.mem_range, Finset.mem_singleton]
        constructor
        · rintro ⟨hjl, hjp⟩
          by_contra hji
          rw [hunreach j (Finset.mem_range.mpr hjl) hji] at hjp
          exact Bool.false_ne_true hjp
        · rintro rfl
          exact ⟨hilt, hasPathC_self edges _⟩
      rw [← card_filter_range, hset]
      exact Finset.card_singleton i
    refine ⟨fn_items.get ⟨i, hilt⟩, ?_⟩
    rw [← hcalc, List.getElem?_map, zip_range_getElem? hilt, Option.map_some']
    congr 1
    rw [Prod.mk.injEq]
    refine ⟨rfl, ?_⟩
    rw [zip_range_countP, hCone]
    norm_num

/-- Witness for C8 at a two-node graph where `itemB` calls `itemA`: scores
are in bounds and the unreached node `itemB` scores 0. -/
theorem c8_usage_bounds_witness :
    (∀ p ∈ [(itemA, (50 : ℚ)), (itemB, 0)], 0 ≤ p.2 ∧ p.2 ≤ 100) ∧
    ∃ it, ([(itemA, (50 : ℚ)), (itemB, 0)] : List (CallHierarchyItem × ℚ))[1]? = some (it, 0) := by
  have hres : resolveEdges [itemA, itemB] [(itemB, itemA)] = some [(1, 0)] := by decide
  have hcalc : calc_fn_usage [itemA, itemB] [(itemB, itemA)] = some [(itemA, 50), (itemB, 0)] := by
    rw [calc_fn_usage_eq hres,
      show ([itemA, itemB].zip
          (List.range ([itemA, itemB] : List CallHierarchyItem).length)) =
        [(itemA, 0), (itemB, 1)] from by decide]
    have hc0 : ([(itemA, 0), (itemB, 1)] : List (CallHierarchyItem × Nat)).countP
        (fun other => hasPathC [(1, 0)] other.2 0) = 2 := by decide
    have hc1 : ([(itemA, 0), (itemB, 1)] : List (CallHierarchyItem × Nat)).countP
        (fun other => hasPathC [(1, 0)] other.2 1) = 1 := by decide
    simp only [List.map_cons, List.map_nil]
    norm_num [hc0, hc1]
  have h := c8_usage_bounds [itemA, itemB] [(itemB, itemA)] [(1, 0)]
    [(itemA, 50), (itemB, 0)] hres hcalc (by decide)
  exact ⟨h.1, h.2.1 1 (by decide) (by decide)⟩

theorem mapM_cons_isSome {A B : Type} (f : A → Option B) (c : A) (l : List A) :
    ((c :: l).mapM f).isSome = ((f c).isSome && (l.mapM f).isSome) := by
  rw [List.mapM_cons]
  cases hf : f c with
  | none => rfl
  | some b =>
    cases hm : l.mapM f with
    | none => rfl
    | some bs => rfl

theorem resolveOne_isSome (fn_items : List CallHierarchyItem)
    (call : CallHierarchyItem × CallHierarchyItem) :
    ((do
        let s ← fn_items.findIdx? (fun n => decide (n.selectionRange = call.1.selectionRange))
        let d ← fn_items.findIdx? (fun n => decide (n.selectionRange = call.2.selectionRange))
        pure (s, d) : Option (Nat × Nat))).isSome =
      ((fn_items.findIdx? (fun n => decide (n.selectionRange = call.1.selectionRange))).isSome &&
        (fn_items.findIdx? (fun n => decide (n.selectionRange = call.2.selectionRange))).isSome) := by
  cases h1 : fn_items.findIdx? (fun n => decide (n.selectionRange = call.1.selectionRange)) with
  | none => rfl
  | some s =>
    cases h2 : fn_items.findIdx? (fun n => decide (n.selectionRange = call.2.selectionRange)) with
    | none => rfl
    | some d => rfl

theorem resolveEdges_isSome_iff (fn_items : List CallHierarchyItem)
    (fn_calls : List (CallHierarchyItem × CallHierarchyItem)) :
    (resolveEdges fn_items fn_calls).isSome = true ↔
      ∀ p ∈ fn_calls,
        (∃ it ∈ fn_items, it.selectionRange = p.1.selectionRange) ∧
        (∃ it ∈ fn_items, it.selectionRange = p.2.selectionRange) := by
  induction fn_calls with
  | nil =>
    rw [resolveEdges, List.mapM_nil]
    simp
  | cons call rest ih =>
    rw [resolveEdges] at ih ⊢
    rw [mapM_cons_isSome, resolveOne_isSome, Bool.and_eq_true, Bool.and_eq_true,
      List.findIdx?_isSome, List.findIdx?_isSome, List.any_eq_true, List.any_eq_true]
    constructor
    · rintro ⟨⟨h1, h2⟩, hrest⟩ p hp
      rcases List.mem_cons.mp hp with rfl | hp
      · obtain ⟨it1, hit1, hd1⟩ := h1
        obtain ⟨it2, hit2, hd2⟩ := h2
        exact ⟨⟨it1, hit1, decide_eq_true_iff.mp hd1⟩, ⟨it2, hit2, decide_eq_true_iff.mp hd2⟩⟩
      · exact ih.mp hrest p hp
    · intro h
      refine ⟨⟨?_, ?_⟩, ih.mpr (fun p hp => h p (List.mem_cons_of_mem call hp))⟩
      · obtain ⟨⟨it1, hit1, hr1⟩, _⟩ := h call (List.mem_cons_self call rest)
        exact ⟨it1, hit1, decide_eq_true_iff.mpr hr1⟩
      · obtain ⟨_, ⟨it2, hit2, hr2⟩⟩ := h call (List.mem_cons_self call rest)
        exact ⟨it2, hit2, decide_eq_true_iff.mpr hr2⟩

/-- Claim C9: `calc_fn_usage` returns a result exactly when both endpoints of
every call edge have a selection range equal to that of some supplied item;
whenever some endpoint matches no item, the `unwrap` of the node lookup
panics (modelled as `none`). -/
theorem c9_lookup_total (fn_items : List CallHierarchyItem)
    (fn_calls : List (CallHierarchyItem × CallHierarchyItem)) :
    (calc_fn_usage fn_items fn_calls).isSome = true ↔
      ∀ p ∈ fn_calls,
        (∃ it ∈ fn_items, it.selectionRange = p.1.selectionRange) ∧
        (∃ it ∈ fn_items, it.selectionRange = p.2.selectionRange) := by
  have hiff : (calc_fn_usage fn_items fn_calls).isSome =
      (resolveEdges fn_items fn_calls).isSome := by
    rw [calc_fn_usage]
    cases hr : resolveEdges fn_items fn_calls with
    | none => rfl
    | some edges => rfl
  rw [hiff]
  exact resolveEdges_isSome_iff fn_items fn_calls

/-- Witness for C9: a single self-call over one item resolves, so
`calc_fn_usage` returns a result. -/
theorem c9_lookup_total_witness :
    (calc_fn_usage [itemA] [(itemA, itemA)]).isSome = true :=
  (c9_lookup_total [itemA] [(itemA, itemA)]).mpr (by decide)

/-! ## Reference graph builder lemmas -/

theorem processReferences_cons (loc : Location) (rest : List Location) (symbolUri : Uri)
    (nodes : List Uri) (conns : List (Uri × Uri)) :
    processReferences (loc :: rest) symbolUri nodes conns =
      processReferences rest symbolUri (nodes.insert loc.uri)
        (if loc.uri ≠ symbolUri then conns.insert (loc.uri, symbolUri) else conns) := by
  by_cases hc : loc.uri = symbolUri
  · rw [processReferences, List.foldl_cons, processReferences]
    simp [hc]
  · rw [processReferences, List.foldl_cons, processReferences]
    simp [hc]

theorem processReferences_conns_mem :
    ∀ (refs : List Location) (symbolUri : Uri) (nodes : List Uri)
      (conns : List (Uri × Uri)) (p : Uri × Uri),
      p ∈ (processReferences refs symbolUri nodes conns).2 → p ∈ conns ∨ p.1 ≠ p.2 := by
  intro refs
  induction refs with
  | nil => intro s n c p hp; exact Or.inl hp
  | cons loc rest ih =>
    intro s n c p hp
    rw [processReferences_cons] at hp
    rcases ih _ _ _ p hp with h | h
    · by_cases hc : loc.uri = s
      · rw [if_neg (by simpa using hc)] at h
        exact Or.inl h
      · rw [if_pos hc] at h
        rcases List.mem_insert_iff.mp h with rfl | h2
        · exact Or.inr hc
        · exact Or.inl h2
    · exact Or.inr h

theorem processSymbols_conns_mem {srv : ServerModel} {fileUri : Uri} :
    ∀ (syms : List DocSymbol) (nodes : List Uri) (conns : List (Uri × Uri))
      (acc : List Uri × List (Uri × Uri)),
      (processSymbols srv fileUri syms nodes conns).2 = .ok acc →
      ∀ p ∈ acc.2, p ∈ conns ∨ p.1 ≠ p.2 := by
  intro syms
  induction syms with
  | nil =>
    intro n c acc h p hp
    rw [processSymbols] at h
    injection h with h
    rw [← h] at hp
    exact Or.inl hp
  | cons s rest ih =>
    intro n c acc h p hp
    rw [processSymbols] at h
    cases href : srv.references fileUri s.selectionRange.1 with
    | error e =>
      rw [href] at h
      exact Except.noConfusion h
    | ok oref =>
      rw [href] at h
      cases oref with
      | none => exact ih _ _ acc h p hp
      | some refs =>
        rcases ih _ _ acc h p hp with h2 | h2
        · rcases processReferences_conns_mem _ _ _ _ p h2 with h3 | h3
          · exact Or.inl h3
          · exact Or.inr h3
        · exact Or.inr h2

theorem processFiles_conns_mem {srv : ServerModel} :
    ∀ (files : List (List Char)) (nodes : List Uri) (conns : List (Uri × Uri))
      (acc : List Uri × List (Uri × Uri)),
      (processFiles srv files nodes conns).2 = .ok acc →
      ∀ p ∈ acc.2, p ∈ conns ∨ p.1 ≠ p.2 := by
  intro files
  induction files with
  | nil =>
    intro n c acc h p hp
    rw [processFiles] at h
    injection h with h
    rw [← h] at hp
    exact Or.inl hp
  | cons path rest ih =>
    intro n c acc h p hp
    rw [processFiles] at h
    cases hds : srv.docSymbol (pathToUri path) with
    | error e =>
      rw [hds] at h
      exact Except.noConfusion h
    | ok o =>
      rw [hds] at h
      cases o with
      | none => exact ih _ _ acc h p hp
      | some dsr =>
        cases dsr with
        | flat => exact Except.noConfusion h
        | nested syms =>
          cases hsym : (processSymbols srv (pathToUri path) syms n c).2 with
          | error e =>
            simp only [hsym] at h
            exact Except.noConfusion h
          | ok acc1 =>
            simp only [hsym] at h
            rcases ih _ _ acc h p hp with h2 | h2
            · rcases processSymbols_conns_mem syms n c acc1 hsym p h2 with h3 | h3
              · exact Or.inl h3
              · exact Or.inr h3
            · exact Or.inr h2

/-- Claim C7: if the server's `initialize` response reports capabilities
lacking a document-symbol provider or a references provider, the run aborts
with an error and the interaction trace consists of the `initialize` exchange
alone — no `initialized` notification and no per-file `didOpen`,
`documentSymbol` or `references` request is ever issued, so the check happens
once, immediately after `initialize`. -/
theorem c7_capability_gate (srv : ServerModel) (basePath : List Char)
    (files : List (List Char)) (caps : ServerCaps) (hcaps : srv.initCaps = .ok caps)
    (hlack : caps.documentSymbolProvider = none ∨ caps.referencesProvider = none) :
    (get_connections srv basePath files).1 = [TraceEv.evInit] ∧
    ∃ e, (get_connections srv basePath files).2 = .error e := by
  rcases hlack with h | h
  · simp only [get_connections, hcaps, h, Option.isNone_none, if_true]
    exact ⟨trivial, _, rfl⟩
  · cases hds : caps.documentSymbolProvider with
    | none =>
      simp only [get_connections, hcaps, hds, Option.isNone_none, if_true]
      exact ⟨trivial, _, rfl⟩
    | some u =>
      simp only [get_connections, hcaps, hds, h, Option.isNone_none, Option.isNone_some,
        Bool.false_eq_true, if_false, if_true]
      exact ⟨trivial, _, rfl⟩

/-- Witness for C7 at a server lacking the references provider. -/
theorem c7_capability_gate_witness :
    (get_connections srvNoRefs basePathAB [pathA]).1 = [TraceEv.evInit] ∧
    ∃ e, (get_connections srvNoRefs basePathAB [pathA]).2 = .error e :=
  c7_capability_gate srvNoRefs basePathAB [pathA] ⟨some (), none⟩ rfl (Or.inr rfl)

theorem stripPre_eq_some {pre s t : List Char} (h : stripPre pre s = some t) :
    pre.isPrefixOf s = true ∧ s.drop pre.length = t := by
  rw [stripPre] at h
  by_cases hp : pre.isPrefixOf s = true
  · rw [if_pos hp] at h
    injection h with h
    exact ⟨hp, h⟩
  · rw [if_neg hp] at h
    exact Option.noConfusion h

/-- Claim C5: the reference graph builder never produces a self-loop edge —
every edge of a successful run has distinct endpoints, before and after root
stripping — and on the two-file scenario (file `A` references the symbol
declared in file `B`, `B` does not reference `A`) the finalized node set is
exactly `{/a, /b}` and the finalized edge set exactly `{(/a, /b)}` (the
accumulators are duplicate-free lists standing for the Rust `HashSet`s, so
the lists below denote those sets). -/
theorem c5_no_self_loops :
    (∀ (srv : ServerModel) (basePath : List Char) (files : List (List Char))
      (nodes : List Uri) (conns : List (Uri × Uri)),
      (get_connections srv basePath files).2 = .ok (nodes, conns) →
      ∀ p ∈ conns, p.1 ≠ p.2) ∧
    (get_connections srvAB basePathAB [pathA, pathB]).2 =
      .ok (["/b".toList, "/a".toList], [("/a".toList, "/b".toList)]) := by
  constructor
  · intro srv basePath files nodes conns h p hp
    rw [get_connections] at h
    cases hcaps : srv.initCaps with
    | error e =>
      rw [hcaps] at h
      exact Except.noConfusion h
    | ok caps =>
      simp only [hcaps] at h
      by_cases h1 : caps.documentSymbolProvider.isNone = true
      · rw [if_pos h1] at h
        exact Except.noConfusion h
      · rw [if_neg h1] at h
        by_cases h2 : caps.referencesProvider.isNone = true
        · rw [if_pos h2] at h
          exact Except.noConfusion h
        · rw [if_neg h2] at h
          cases hpf : (processFiles srv files [] []).2 with
          | error e =>
            simp only [hpf] at h
            exact Except.noConfusion h
          | ok acc =>
            obtain ⟨rawNodes, rawConns⟩ := acc
            simp only [hpf] at h
            injection h with h
            rw [Prod.mk.injEq] at h
            rw [← h.2] at hp
            obtain ⟨q, hqmem, hfq⟩ := List.mem_filterMap.mp hp
            have hqne : q.1 ≠ q.2 := by
              rcases processFiles_conns_mem files [] [] (rawNodes, rawConns) hpf q hqmem with
                hq0 | hq0
              · exact absurd hq0 (List.not_mem_nil q)
              · exact hq0
            cases hs1 : stripPre (pathToUri basePath) q.1 with
            | none =>
              cases hs2 : stripPre (pathToUri basePath) q.2 with
              | none =>
                rw [hs1, hs2] at hfq
                exact Option.noConfusion hfq
              | some t2 =>
                rw [hs1, hs2] at hfq
                exact Option.noConfusion hfq
            | some t1 =>
              cases hs2 : stripPre (pathToUri basePath) q.2 with
              | none =>
                rw [hs1, hs2] at hfq
                exact Option.noConfusion hfq
              | some t2 =>
                rw [hs1, hs2] at hfq
                injection hfq with hfq
                obtain ⟨hpre1, hdrop1⟩ := stripPre_eq_some hs1
                obtain ⟨hpre2, hdrop2⟩ := stripPre_eq_some hs2
                obtain ⟨t1x, ht1⟩ := List.isPrefixOf_iff_prefix.mp hpre1
                obtain ⟨t2x, ht2⟩ := List.isPrefixOf_iff_prefix.mp hpre2
                have e1 : t1x = t1 := by rw [← hdrop1, ← ht1, List.drop_left]
                have e2 : t2x = t2 := by rw [← hdrop2, ← ht2, List.drop_left]
                rw [← hfq]
                show t1 ≠ t2
                intro heq
                apply hqne
                rw [← ht1, ← ht2, e1, e2, heq]
  · decide

/-- Witness for C5: the finalized two-file edge set contains no self-loop.
The run-result hypothesis is discharged by the theorem's own concrete
conjunct. -/
theorem c5_no_self_loops_witness :
    ∀ p ∈ ([("/a".toList, "/b".toList)] : List (Uri × Uri)), p.1 ≠ p.2 :=
  c5_no_self_loops.1 srvAB basePathAB [pathA, pathB] ["/b".toList, "/a".toList]
    [("/a".toList, "/b".toList)] c5_no_self_loops.2

/-- Claim C6 counterexample: the builder does not recursively flatten the
nested symbol tree.  For a file whose `documentSymbol` response is one
top-level symbol `symOuter` containing the child `symInner`, the spec-side
flattening (`flattenSymbols`, modelled from the spec) yields both symbols,
but the run's trace contains a `references` query only for `symOuter`'s
selection position — no query is ever issued at `symInner`'s position. -/
theorem c6_counterexample :
    flattenSymbols [symOuter] = [symOuter, symInner] ∧
    (get_connections srvNested basePathAB [pathN]).1 =
      [TraceEv.evInit, TraceEv.evInited, TraceEv.evDidOpen uriN, TraceEv.evDocSymbol uriN,
        TraceEv.evReferences uriN symOuter.selectionRange.1] ∧
    TraceEv.evReferences uriN symInner.selectionRange.1 ∉
      (get_connections srvNested basePathAB [pathN]).1 := by
  refine ⟨by simp [flattenSymbols, symOuter, symInner], by decide, by decide⟩

/-- Claim C6 (amended): for each file, whenever the per-symbol `references`
requests succeed, the builder issues exactly one `references` query per
*top-level* symbol of the `Nested` response, at that symbol's
`selection_range.start`, in order and regardless of the symbol's kind;
nested child symbols are never queried (the code never recurses into
`children`). -/
theorem c6_top_level_queries (srv : ServerModel) (fileUri : Uri) :
    ∀ (syms : List DocSymbol) (nodes : List Uri) (conns : List (Uri × Uri)),
      (∀ s ∈ syms, ∃ v, srv.references fileUri s.selectionRange.1 = .ok v) →
      (processSymbols srv fileUri syms nodes conns).1 =
        syms.map (fun s => TraceEv.evReferences fileUri s.selectionRange.1) := by
  intro syms
  induction syms with
  | nil => intro n c _; rfl
  | cons s rest ih =>
    intro n c h
    obtain ⟨v, hv⟩ := h s (List.mem_cons_self s rest)
    cases v with
    | none =>
      simp only [processSymbols, hv, List.map_cons]
      rw [ih _ _ (fun s2 hs2 => h s2 (List.mem_cons_of_mem s hs2))]
    | some refs =>
      simp only [processSymbols, hv, List.map_cons]
      rw [ih _ _ (fun s2 hs2 => h s2 (List.mem_cons_of_mem s hs2))]

/-- Witness for C6 (amended) on the nested-symbol scenario. -/
theorem c6_top_level_queries_witness :
    (processSymbols srvNested uriN [symOuter] [] []).1 =
      [symOuter].map (fun s => TraceEv.evReferences uriN s.selectionRange.1) :=
  c6_top_level_queries srvNested uriN [symOuter] [] []
    (fun s _ => ⟨none, rfl⟩)

/-- Witness for C2 (amended) at the duplicate-item input: entry 0 receives
the entry-level score formula. -/
theorem c2_usage_formula_witness :
    ∃ scores, calc_fn_usage dupItems dupCalls = some scores ∧
      scores[0]? = some (dupItems.get ⟨0, by decide⟩,
        100 * (((Finset.range dupItems.length).filter
            (fun j => j ≠ 0 ∧ hasPathC [(1, 0)] j 0 = true)).card : ℚ) / (dupItems.length : ℚ)) ∧
      (∀ a b : Nat, hasPathC [(1, 0)] a b = true ↔
        Relation.ReflTransGen (edgeRel [(1, 0)]) a b) :=
  c2_usage_formula dupItems dupCalls [(1, 0)] (by decide) 0 (by decide)
